import Mathlib

/-!
Verification development for the fixed-size byte container `zuu::bytes<N>`
of `src/bytes.hpp`.

The container stores `uint8_t data_[N]` (index 0 = least-significant byte).
We embed a buffer as a function `Fin N → Nat`; every store into the array
takes `% 256`, which is exactly the truncation performed by assignment to a
`uint8_t` element in the source.  The well-formedness predicate `Wf` records
the representation invariant (every byte below 256) that every genuine
`bytes<N>` object enjoys.

The host byte order constants `is_little_endian` / `is_big_endian`,
`endian_t` and `native_endian` come from `endian.hpp`, which is not part of
the sources given; following the spec ("compile-time constants describing
the executing machine's native byte order", a two-valued enumeration
{little, big}), the native order is modelled as an explicit boolean
parameter `le` (`le = true` means the host is little-endian, and
`is_big_endian = !le`).
-/

namespace Zuu

/-- The byte array `uint8_t data_[N]` of `zuu::bytes<N>` (bytes.hpp line 47),
in storage order: index 0 is the least-significant byte. -/
abbrev Bytes (N : Nat) := Fin N → Nat

/-- Representation invariant of the embedding: every byte value fits in
`uint8_t`, as the element type of the source array guarantees. -/
abbrev Wf {N : Nat} (x : Bytes N) : Prop := ∀ i, x i < 256

/-- Default construction `bytes()` with zero-initialised storage
`byte_t data_[N]{}` (bytes.hpp lines 47 and 52). -/
def zeroB (N : Nat) : Bytes N := fun _ => 0

/-- Bitwise OR `operator|` (bytes.hpp lines 122-126):
`r.data_[i] = data_[i] | o.data_[i]` for every index. -/
def bor {N : Nat} (a b : Bytes N) : Bytes N := fun i => (a i ||| b i) % 256

/-- Bitwise AND `operator&` (bytes.hpp lines 128-132). -/
def band {N : Nat} (a b : Bytes N) : Bytes N := fun i => (a i &&& b i) % 256

/-- Bitwise XOR `operator^` (bytes.hpp lines 134-138). -/
def bxor {N : Nat} (a b : Bytes N) : Bytes N := fun i => (a i ^^^ b i) % 256

/-- Bitwise NOT `operator~` (bytes.hpp lines 140-144): `~data_[i]` promotes
the byte to `int`, complements it, and truncates back to `uint8_t`, which for
a value `v` stores `255 - v % 256`. -/
def bnot {N : Nat} (a : Bytes N) : Bytes N := fun i => 255 - a i % 256

/-- Carrying loop of `operator<<` for a shift that is not a multiple of 8
(bytes.hpp lines 160-164).  Iteration `k` writes result byte `k + byte_sh`
from `(data_[k] << bit_sh) | carry` and updates
`carry = data_[k] >> (8 - bit_sh)`; the pair threads the state `(r, carry)`
after `k` iterations, starting from the zero-initialised result. -/
def shlLoop {N : Nat} (x : Bytes N) (byte_sh bit_sh : Nat) : Nat → (Bytes N × Nat)
  | 0 => (zeroB N, 0)
  | k + 1 =>
    let p := shlLoop x byte_sh bit_sh k
    if h : k + byte_sh < N then
      (Function.update p.1 ⟨k + byte_sh, h⟩
          (((x ⟨k, Nat.lt_of_le_of_lt (Nat.le_add_right k byte_sh) h⟩ <<< bit_sh) ||| p.2) % 256),
        (x ⟨k, Nat.lt_of_le_of_lt (Nat.le_add_right k byte_sh) h⟩ >>> (8 - bit_sh)) % 256)
    else p

/-- Left shift `operator<<(size_type bits)` (bytes.hpp lines 148-167):
identity for `bits == 0`, the zero buffer for `bits >= bit_count`; otherwise
either a pure byte move (when `bits % 8 == 0`) or the carrying loop. -/
def shift_left {N : Nat} (x : Bytes N) (bits : Nat) : Bytes N :=
  if bits = 0 then x
  else if 8 * N ≤ bits then zeroB N
  else if bits % 8 = 0 then
    fun i =>
      if bits / 8 ≤ i.val then
        x ⟨i.val - bits / 8, Nat.lt_of_le_of_lt (Nat.sub_le _ _) i.isLt⟩
      else 0
  else (shlLoop x (bits / 8) (bits % 8) (N - bits / 8)).1

/-- Carrying loop of `operator>>` for a shift that is not a multiple of 8
(bytes.hpp lines 181-185).  The source iterates `i` downwards from
`N - byte_sh - 1` to 0 with
`r.data_[i] = (data_[i + byte_sh] >> bit_sh) | carry` and
`carry = data_[i + byte_sh] << (8 - bit_sh)` (truncated to a byte); here
iteration `k` of the recursion processes index `N - byte_sh - 1 - k`. -/
def shrLoop {N : Nat} (x : Bytes N) (byte_sh bit_sh : Nat) : Nat → (Bytes N × Nat)
  | 0 => (zeroB N, 0)
  | k + 1 =>
    let p := shrLoop x byte_sh bit_sh k
    if h : k < N - byte_sh then
      (Function.update p.1 ⟨N - byte_sh - 1 - k, by omega⟩
          (((x ⟨N - byte_sh - 1 - k + byte_sh, by omega⟩ >>> bit_sh) ||| p.2) % 256),
        (x ⟨N - byte_sh - 1 - k + byte_sh, by omega⟩ <<< (8 - bit_sh)) % 256)
    else p

/-- Right shift `operator>>(size_type bits)` (bytes.hpp lines 169-188):
identity for `bits == 0`, the zero buffer for `bits >= bit_count`; otherwise
either a pure byte move (when `bits % 8 == 0`) or the carrying loop. -/
def shift_right {N : Nat} (x : Bytes N) (bits : Nat) : Bytes N :=
  if bits = 0 then x
  else if 8 * N ≤ bits then zeroB N
  else if bits % 8 = 0 then
    fun i => if h : i.val < N - bits / 8 then x ⟨i.val + bits / 8, by omega⟩ else 0
  else (shrLoop x (bits / 8) (bits % 8) (N - bits / 8)).1

/-- Bit set `set_bit(pos)` (bytes.hpp lines 200-202): when `pos < bit_count`
it performs `data_[pos/8] |= 1u << (pos % 8)` (truncated to a byte on
store), otherwise it does nothing. -/
def set_bit {N : Nat} (x : Bytes N) (pos : Nat) : Bytes N :=
  if h : pos < 8 * N then
    Function.update x ⟨pos / 8, by omega⟩
      ((x ⟨pos / 8, by omega⟩ ||| (1 <<< (pos % 8))) % 256)
  else x

/-- Bit clear `clear_bit(pos)` (bytes.hpp lines 204-206): when
`pos < bit_count` it performs `data_[pos/8] &= ~(1u << (pos % 8))`; the
complement of the 32-bit unsigned literal `1u << k` is
`4294967295 ^^^ (1 <<< k)`, and the store truncates to a byte. -/
def clear_bit {N : Nat} (x : Bytes N) (pos : Nat) : Bytes N :=
  if h : pos < 8 * N then
    Function.update x ⟨pos / 8, by omega⟩
      ((x ⟨pos / 8, by omega⟩ &&& (4294967295 ^^^ (1 <<< (pos % 8)))) % 256)
  else x

/-- Bit toggle `toggle_bit(pos)` (bytes.hpp lines 208-210): when
`pos < bit_count` it performs `data_[pos/8] ^= 1u << (pos % 8)` (truncated
to a byte on store), otherwise it does nothing. -/
def toggle_bit {N : Nat} (x : Bytes N) (pos : Nat) : Bytes N :=
  if h : pos < 8 * N then
    Function.update x ⟨pos / 8, by omega⟩
      ((x ⟨pos / 8, by omega⟩ ^^^ (1 <<< (pos % 8))) % 256)
  else x

/-- Bit test `test_bit(pos)` (bytes.hpp lines 212-214):
`pos < bit_count && (data_[pos/8] & (1u << (pos % 8))) != 0`. -/
def test_bit {N : Nat} (x : Bytes N) (pos : Nat) : Bool :=
  if h : pos < 8 * N then
    decide ((x ⟨pos / 8, by omega⟩ &&& (1 <<< (pos % 8))) ≠ 0)
  else false

/-- Rotation `rotate_left(n)` (bytes.hpp lines 224-227): reduce `n` modulo
`bit_count`, then `(*this << n) | (*this >> (bit_count - n))`. -/
def rotate_left {N : Nat} (x : Bytes N) (n : Nat) : Bytes N :=
  bor (shift_left x (n % (8 * N))) (shift_right x (8 * N - n % (8 * N)))

/-- Rotation `rotate_right(n)` (bytes.hpp lines 229-232): reduce `n` modulo
`bit_count`, then `(*this >> n) | (*this << (bit_count - n))`. -/
def rotate_right {N : Nat} (x : Bytes N) (n : Nat) : Bytes N :=
  bor (shift_right x (n % (8 * N))) (shift_left x (8 * N - n % (8 * N)))

/-- Integer constructor `bytes(IntT value)` (bytes.hpp lines 70-81) for an
integer of width `w = sizeof(IntT)` bytes: with `copy = min(w, N)`, bytes
`0 ≤ i < copy` receive `(value >> (i*8))` truncated to a byte and the rest
stay zero.  The integer value is modelled as its `w`-byte bit pattern, a
natural number below `2^(8*w)`.  (For `copy > 8` the source switches to
`memcpy` of the native representation, which produces exactly these bytes on
a little-endian host; all standard integral types take the loop branch.) -/
def ofInt (N w : Nat) (v : Nat) : Bytes N :=
  fun i => if i.val < min w N then (v >>> (i.val * 8)) % 256 else 0

/-- Accumulating loop of `to_int<IntT>()` (bytes.hpp lines 241-243):
`r |= IntT(data_[i]) << (i*8)` for `i` below the requested count. -/
def toIntLoop {N : Nat} (x : Bytes N) : Nat → Nat
  | 0 => 0
  | k + 1 => toIntLoop x k ||| (if h : k < N then x ⟨k, h⟩ <<< (k * 8) else 0)

/-- Extraction `to_int<IntT>()` (bytes.hpp lines 236-245) for an integer of
width `w` bytes: OR together `copy = min(w, N)` bytes in
least-significant-byte-first order. -/
def to_int {N : Nat} (w : Nat) (x : Bytes N) : Nat := toIntLoop x (min w N)

/-- Byte reversal `reverse()` (bytes.hpp lines 255-259):
`r.data_[i] = data_[N - 1 - i]`. -/
def reverse {N : Nat} (x : Bytes N) : Bytes N :=
  fun i => x ⟨N - 1 - i.val, by omega⟩

/-- Conversion `to_little_endian()` (bytes.hpp lines 268-274): identity when
the host is little-endian (`le = true`), otherwise `reverse()`. -/
def to_little_endian {N : Nat} (le : Bool) (x : Bytes N) : Bytes N :=
  if le then x else reverse x

/-- Conversion `to_big_endian()` (bytes.hpp lines 281-287): identity when the
host is big-endian (`is_big_endian = !le`), otherwise `reverse()`. -/
def to_big_endian {N : Nat} (le : Bool) (x : Bytes N) : Bytes N :=
  if !le then x else reverse x

/-- Conversion `to_network()` (bytes.hpp lines 293-295): defined as
`to_big_endian()`. -/
def to_network {N : Nat} (le : Bool) (x : Bytes N) : Bytes N :=
  to_big_endian le x

/-- Conversion `from_little_endian()` (bytes.hpp lines 301-303): defined as
`to_little_endian()` (symmetric operation). -/
def from_little_endian {N : Nat} (le : Bool) (x : Bytes N) : Bytes N :=
  to_little_endian le x

/-- Conversion `from_big_endian()` (bytes.hpp lines 309-311): defined as
`to_big_endian()` (symmetric operation). -/
def from_big_endian {N : Nat} (le : Bool) (x : Bytes N) : Bytes N :=
  to_big_endian le x

/-- Conversion `from_network()` (bytes.hpp lines 317-319): defined as
`from_big_endian()`. -/
def from_network {N : Nat} (le : Bool) (x : Bytes N) : Bytes N :=
  from_big_endian le x

/-- Modelled from the spec: the two-valued endianness enumeration
`endian_t` {little, big} of `endian.hpp`, which is not among the given
sources ("Endianness — enumeration {little, big}; used only as a
parameter, never stored"). -/
inductive endian_t where
  | little : endian_t
  | big : endian_t
deriving DecidableEq

/-- Modelled from the spec: the host-detection constant `native_endian` of
`endian.hpp`, determined by the host byte order parameter `le`. -/
def native_endian (le : Bool) : endian_t :=
  if le then endian_t.little else endian_t.big

/-- Runtime conversion `to_endian(target)` (bytes.hpp lines 326-332):
identity when `target` equals the native order, otherwise `reverse()`. -/
def to_endian {N : Nat} (le : Bool) (x : Bytes N) (target : endian_t) : Bytes N :=
  if target = native_endian le then x else reverse x

/-- Runtime conversion `from_endian(source)` (bytes.hpp lines 339-341):
defined as `to_endian(source)` (symmetric). -/
def from_endian {N : Nat} (le : Bool) (x : Bytes N) (source : endian_t) : Bytes N :=
  to_endian le x source

/-- Swap loop of `swap_bytes()` (bytes.hpp lines 346-352): iteration `k`
(for `k < N/2`) exchanges `data_[k]` and `data_[N - 1 - k]` through a
temporary; the recursion performs the first `k` iterations. -/
def swapLoop {N : Nat} (x : Bytes N) : Nat → Bytes N
  | 0 => x
  | k + 1 =>
    let r := swapLoop x k
    if h : k < N / 2 then
      Function.update (Function.update r ⟨k, by omega⟩ (r ⟨N - 1 - k, by omega⟩))
        ⟨N - 1 - k, by omega⟩ (r ⟨k, by omega⟩)
    else r

/-- In-place byte reversal `swap_bytes()` (bytes.hpp lines 346-352): the
pairwise swap loop run for `N/2` iterations. -/
def swap_bytes {N : Nat} (x : Bytes N) : Bytes N := swapLoop x (N / 2)

/-- Construction `from_int(value, target_endian)` (bytes.hpp lines 395-403):
build `bytes result(value)` in native order, then `result.swap_bytes()` when
the target differs from the native order. -/
def from_int (N : Nat) (le : Bool) (w : Nat) (v : Nat) (target : endian_t) : Bytes N :=
  if target ≠ native_endian le then swap_bytes (ofInt N w v) else ofInt N w v

/-- Extraction `to_int<IntT>(source_endian)` (bytes.hpp lines 382-387):
normalise with `from_endian(source_endian)` and delegate to the plain
`to_int<IntT>()`. -/
def to_int_endian {N : Nat} (le : Bool) (w : Nat) (x : Bytes N) (source : endian_t) : Nat :=
  to_int w (from_endian le x source)

/-- Element access `operator[](size_type i)` (bytes.hpp lines 90-95):
`data_[i < N ? i : N - 1]`, a silent clamp of out-of-range indices; `N > 0`
is the requires-clause of the class (bytes.hpp line 30). -/
def subscript {N : Nat} (hN : 0 < N) (x : Bytes N) (i : Nat) : Nat :=
  x ⟨if i < N then i else N - 1, by split <;> omega⟩

/-- Concrete two-byte buffer `[1, 2]`, counterexample input for C1. -/
def xC1 : Bytes 2 := fun i => if i.val = 0 then 1 else 2

/-- Concrete one-byte buffer `0xAB`, witness input for C2. -/
def xC2 : Bytes 1 := fun _ => 171

/-- Concrete one-byte buffer `0xCA`, witness input for C3. -/
def xC3 : Bytes 1 := fun _ => 202

/-- Concrete two-byte buffer `[10, 20]`, witness input for C7. -/
def xC7 : Bytes 2 := fun i => 10 * (i.val + 1)

/-- Concrete one-byte buffer `7`, witness input for C8. -/
def xC8 : Bytes 1 := fun _ => 7

/-- Concrete two-byte buffer `[0xF0, 0xAA]`, witness input for C9. -/
def aC9 : Bytes 2 := fun i => if i.val = 0 then 240 else 170

/-- Concrete two-byte buffer `[0xCC, 0x55]`, witness input for C9. -/
def bC9 : Bytes 2 := fun i => if i.val = 0 then 204 else 85

/-- Concrete one-byte buffer `5`, witness input for C10. -/
def xC10 : Bytes 1 := fun _ => 5

/-! ### Basic helper lemmas -/

/-- Double reversal is the identity on every buffer. -/
theorem reverse_reverse {N : Nat} (x : Bytes N) : reverse (reverse x) = x := by
  funext i
  have hi := i.isLt
  show x ⟨N - 1 - (N - 1 - i.val), _⟩ = x i
  have h : N - 1 - (N - 1 - i.val) = i.val := by omega
  exact congrArg x (Fin.ext h)

/-- Inside the valid range, `test_bit` reads bit `pos % 8` of byte
`pos / 8`. -/
theorem test_bit_lt {N : Nat} (x : Bytes N) (pos : Nat) (h : pos < 8 * N) :
    test_bit x pos = (x ⟨pos / 8, by omega⟩).testBit (pos % 8) := by
  rw [test_bit, dif_pos h, Nat.one_shiftLeft]
  rcases hb : (x ⟨pos / 8, by omega⟩).testBit (pos % 8) with _ | _
  · simp only [decide_eq_false_iff_not, ne_eq, not_not]
    apply Nat.eq_of_testBit_eq
    intro j
    simp only [Nat.testBit_and, Nat.testBit_two_pow, Nat.zero_testBit]
    rcases eq_or_ne (pos % 8) j with rfl | hj
    · simp [hb]
    · simp [hj]
  · simp only [decide_eq_true_iff, ne_eq]
    intro h0
    have := congrArg (fun t => t.testBit (pos % 8)) h0
    simp [Nat.testBit_and, hb] at this

/-- Out of the valid range, `test_bit` is false. -/
theorem test_bit_ge {N : Nat} (x : Bytes N) (pos : Nat) (h : 8 * N ≤ pos) :
    test_bit x pos = false := by
  rw [test_bit, dif_neg (by omega)]

/-- Reading the buffer bit at `8 * j + k` (with `k < 8`) reads bit `k` of
byte `j`. -/
theorem test_bit_byte {N : Nat} (x : Bytes N) (j : Fin N) (k : Nat) (hk : k < 8) :
    test_bit x (8 * j.val + k) = (x j).testBit k := by
  have hlt : 8 * j.val + k < 8 * N := by have := j.isLt; omega
  rw [test_bit_lt x _ hlt]
  have h1 : (8 * j.val + k) / 8 = j.val := by omega
  have h2 : (8 * j.val + k) % 8 = k := by omega
  rw [h2]
  exact congrArg (fun b => Nat.testBit b k) (congrArg x (Fin.ext h1))

/-- Two well-formed buffers with the same bits are equal. -/
theorem wf_byte_ext {N : Nat} {a b : Bytes N} (ha : Wf a) (hb : Wf b)
    (h : ∀ p, p < 8 * N → test_bit a p = test_bit b p) : a = b := by
  funext i
  apply Nat.eq_of_testBit_eq
  intro k
  by_cases hk : k < 8
  · have hp : 8 * i.val + k < 8 * N := by have := i.isLt; omega
    have := h (8 * i.val + k) hp
    rwa [test_bit_byte a i k hk, test_bit_byte b i k hk] at this
  · have h256 : (256 : Nat) ≤ 2 ^ k := by
      calc (256 : Nat) = 2 ^ 8 := by norm_num
      _ ≤ 2 ^ k := Nat.pow_le_pow_right (by norm_num) (by omega)
    rw [Nat.testBit_lt_two_pow (Nat.lt_of_lt_of_le (ha i) h256),
      Nat.testBit_lt_two_pow (Nat.lt_of_lt_of_le (hb i) h256)]

/-- Bits of a byte remainder: reducing modulo 256 keeps exactly the low 8
bits. -/
theorem testBit_mod256 (a k : Nat) : (a % 256).testBit k = (decide (k < 8) && a.testBit k) := by
  rw [show (256 : Nat) = 2 ^ 8 by norm_num, Nat.testBit_mod_two_pow]

/-- A byte value has no bits at positions 8 and above. -/
theorem testBit_byte_ge {b k : Nat} (hb : b < 256) (hk : 8 ≤ k) : b.testBit k = false :=
  Nat.testBit_lt_two_pow (Nat.lt_of_lt_of_le hb
    (by calc (256 : Nat) = 2 ^ 8 := by norm_num
        _ ≤ 2 ^ k := Nat.pow_le_pow_right (by norm_num) hk))

/-- State of the left-shift carry loop after `k` iterations: the carry holds
the high bits of the last source byte processed, and result byte `j` holds
the shifted byte OR'd with the carry taken from the previous source byte. -/
theorem shlLoop_spec {N : Nat} (x : Bytes N) (bs sh : Nat) :
    ∀ k, ∀ hkN : k + bs ≤ N,
      ((shlLoop x bs sh k).2 =
        if hk : k = 0 then 0 else (x ⟨k - 1, by omega⟩ >>> (8 - sh)) % 256)
      ∧ ∀ j : Fin N, (shlLoop x bs sh k).1 j =
          if hj : bs ≤ j.val ∧ j.val < k + bs then
            ((x ⟨j.val - bs, by omega⟩ <<< sh) |||
              (if j.val = bs then 0
               else (x ⟨j.val - bs - 1, by omega⟩ >>> (8 - sh)) % 256)) % 256
          else 0 := by
  intro k
  induction k with
  | zero =>
    intro hkN
    refine ⟨rfl, fun j => ?_⟩
    rw [dif_neg (by omega)]
    rfl
  | succ k ih =>
    intro hkN
    obtain ⟨ih2, ih1⟩ := ih (by omega)
    have hguard : k + bs < N := by omega
    rw [shlLoop, dif_pos hguard]
    constructor
    · dsimp only
      rw [dif_neg (Nat.succ_ne_zero k)]
      simp only [Nat.add_sub_cancel]
    · intro j
      dsimp only
      by_cases hj : j = (⟨k + bs, hguard⟩ : Fin N)
      · subst hj
        rw [Function.update_same, ih2]
        dsimp only
        rw [dif_pos (show bs ≤ k + bs ∧ k + bs < k + 1 + bs by omega)]
        by_cases hk0 : k = 0
        · subst hk0
          rw [dif_pos rfl, if_pos (show 0 + bs = bs by omega)]
          have e1 : 0 + bs - bs = 0 := by omega
          simp only [e1]
        · rw [dif_neg hk0, if_neg (show ¬(k + bs = bs) by omega)]
          have e1 : k + bs - bs = k := by omega
          have e2 : k + bs - bs - 1 = k - 1 := by omega
          simp only [e1, e2]
      · rw [Function.update_noteq hj, ih1 j]
        have hv : j.val ≠ k + bs := fun h => hj (Fin.ext h)
        by_cases hc : bs ≤ j.val ∧ j.val < k + bs
        · rw [dif_pos hc, dif_pos (by omega)]
        · rw [dif_neg hc, dif_neg (by omega)]

/-- State of the right-shift carry loop after `k` iterations (which have
processed indices `N - bs - 1` down to `N - bs - k`): the carry holds the
low bits of the last source byte processed, and result byte `j` holds the
shifted byte OR'd with the carry taken from the next source byte up. -/
theorem shrLoop_spec {N : Nat} (x : Bytes N) (bs sh : Nat) (hbs : bs < N) :
    ∀ k, ∀ hkN : k ≤ N - bs,
      ((shrLoop x bs sh k).2 =
        if hk : k = 0 then 0 else (x ⟨N - bs - k + bs, by omega⟩ <<< (8 - sh)) % 256)
      ∧ ∀ j : Fin N, (shrLoop x bs sh k).1 j =
          if hj : N - bs - k ≤ j.val ∧ j.val < N - bs then
            ((x ⟨j.val + bs, by omega⟩ >>> sh) |||
              (if hj1 : j.val = N - bs - 1 then 0
               else (x ⟨j.val + bs + 1, by omega⟩ <<< (8 - sh)) % 256)) % 256
          else 0 := by
  intro k
  induction k with
  | zero =>
    intro hkN
    refine ⟨rfl, fun j => ?_⟩
    rw [dif_neg (by omega)]
    rfl
  | succ k ih =>
    intro hkN
    obtain ⟨ih2, ih1⟩ := ih (by omega)
    have hguard : k < N - bs := by omega
    rw [shrLoop, dif_pos hguard]
    constructor
    · dsimp only
      rw [dif_neg (Nat.succ_ne_zero k)]
      have e1 : N - bs - (k + 1) + bs = N - bs - 1 - k + bs := by omega
      simp only [e1]
    · intro j
      dsimp only
      by_cases hj : j = (⟨N - bs - 1 - k, by omega⟩ : Fin N)
      · rw [Function.update_apply, if_pos hj, ih2]
        subst hj
        dsimp only
        rw [dif_pos (show N - bs - (k + 1) ≤ N - bs - 1 - k ∧ N - bs - 1 - k < N - bs by omega)]
        by_cases hk0 : k = 0
        · subst hk0
          rw [dif_pos rfl, dif_pos (show N - bs - 1 - 0 = N - bs - 1 by omega)]
        · rw [dif_neg hk0, dif_neg (show ¬(N - bs - 1 - k = N - bs - 1) by omega)]
          have e1 : N - bs - 1 - k + bs + 1 = N - bs - k + bs := by omega
          simp only [e1]
      · rw [Function.update_apply, if_neg hj, ih1 j]
        have hv : j.val ≠ N - bs - 1 - k := fun h => hj (Fin.ext h)
        by_cases hc : N - bs - k ≤ j.val ∧ j.val < N - bs
        · rw [dif_pos hc, dif_pos (show N - bs - (k + 1) ≤ j.val ∧ j.val < N - bs by omega)]
        · rw [dif_neg hc,
            dif_neg (show ¬(N - bs - (k + 1) ≤ j.val ∧ j.val < N - bs) by omega)]

/-- The zero buffer is well formed. -/
theorem wf_zeroB (N : Nat) : Wf (zeroB N) := fun _ => show (0 : Nat) < 256 by norm_num

/-- Byte-wise OR preserves well-formedness (every store truncates). -/
theorem wf_bor {N : Nat} (a b : Bytes N) : Wf (bor a b) :=
  fun _ => Nat.mod_lt _ (by norm_num)

/-- Left shift preserves well-formedness. -/
theorem wf_shift_left {N : Nat} {x : Bytes N} (hx : Wf x) (bits : Nat) :
    Wf (shift_left x bits) := by
  by_cases h0 : bits = 0
  · rw [shift_left, if_pos h0]; exact hx
  rw [shift_left, if_neg h0]
  by_cases h1 : 8 * N ≤ bits
  · rw [if_pos h1]; exact wf_zeroB N
  rw [if_neg h1]
  by_cases h2 : bits % 8 = 0
  · rw [if_pos h2]
    intro i
    dsimp only
    split
    · exact hx _
    · norm_num
  · rw [if_neg h2]
    intro i
    obtain ⟨-, hspec⟩ := shlLoop_spec x (bits / 8) (bits % 8) (N - bits / 8) (by omega)
    rw [hspec i]
    split
    · exact Nat.mod_lt _ (by norm_num)
    · norm_num

/-- Right shift preserves well-formedness. -/
theorem wf_shift_right {N : Nat} {x : Bytes N} (hx : Wf x) (bits : Nat) :
    Wf (shift_right x bits) := by
  by_cases h0 : bits = 0
  · rw [shift_right, if_pos h0]; exact hx
  rw [shift_right, if_neg h0]
  by_cases h1 : 8 * N ≤ bits
  · rw [if_pos h1]; exact wf_zeroB N
  rw [if_neg h1]
  by_cases h2 : bits % 8 = 0
  · rw [if_pos h2]
    intro i
    dsimp only
    split
    · exact hx _
    · norm_num
  · rw [if_neg h2]
    intro i
    obtain ⟨-, hspec⟩ :=
      shrLoop_spec x (bits / 8) (bits % 8) (by omega) (N - bits / 8) (Nat.le_refl _)
    rw [hspec i]
    split
    · exact Nat.mod_lt _ (by norm_num)
    · norm_num

/-- Rotations preserve well-formedness. -/
theorem wf_rotate_left {N : Nat} (x : Bytes N) (n : Nat) : Wf (rotate_left x n) :=
  wf_bor _ _

/-- Right rotation preserves well-formedness. -/
theorem wf_rotate_right {N : Nat} (x : Bytes N) (n : Nat) : Wf (rotate_right x n) :=
  wf_bor _ _

/-- Bit-level behaviour of `operator<<`: bit `p` of `x << bits` is bit
`p - bits` of `x` when `bits ≤ p`, and 0 otherwise. -/
theorem shift_left_testBit {N : Nat} {x : Bytes N} (hx : Wf x) (bits p : Nat)
    (hp : p < 8 * N) :
    test_bit (shift_left x bits) p = (decide (bits ≤ p) && test_bit x (p - bits)) := by
  by_cases h0 : bits = 0
  · subst h0
    rw [shift_left, if_pos rfl]
    simp
  by_cases h1 : 8 * N ≤ bits
  · rw [shift_left, if_neg h0, if_pos h1, test_bit_lt _ _ hp]
    rw [decide_eq_false (show ¬(bits ≤ p) by omega), Bool.false_and]
    simp [zeroB]
  rw [shift_left, if_neg h0, if_neg h1, test_bit_lt _ _ hp]
  by_cases h2 : bits % 8 = 0
  · rw [if_pos h2]
    dsimp only
    by_cases hc : bits / 8 ≤ p / 8
    · rw [if_pos hc]
      have hble : bits ≤ p := by omega
      have hpb : p - bits < 8 * N := by omega
      rw [decide_eq_true hble, Bool.true_and, test_bit_lt _ _ hpb]
      have e2 : (p - bits) % 8 = p % 8 := by omega
      rw [e2]
      exact congrArg (fun b => Nat.testBit b (p % 8))
        (congrArg x (Fin.ext (show p / 8 - bits / 8 = (p - bits) / 8 by omega)))
    · rw [if_neg hc]
      rw [decide_eq_false (show ¬(bits ≤ p) by omega), Bool.false_and]
      simp
  · rw [if_neg h2]
    obtain ⟨-, hspec⟩ := shlLoop_spec x (bits / 8) (bits % 8) (N - bits / 8) (by omega)
    rw [hspec ⟨p / 8, by omega⟩]
    dsimp only
    by_cases hc : bits / 8 ≤ p / 8
    · rw [dif_pos (show bits / 8 ≤ p / 8 ∧ p / 8 < N - bits / 8 + bits / 8 by omega)]
      rw [testBit_mod256, decide_eq_true (show p % 8 < 8 by omega), Bool.true_and,
        Nat.testBit_or, Nat.testBit_shiftLeft]
      by_cases hjb : p / 8 = bits / 8
      · rw [if_pos hjb]
        rw [Nat.zero_testBit, Bool.or_false]
        by_cases hks : bits % 8 ≤ p % 8
        · rw [decide_eq_true (show p % 8 ≥ bits % 8 from hks), Bool.true_and]
          have hble : bits ≤ p := by omega
          have hpb : p - bits < 8 * N := by omega
          rw [decide_eq_true hble, Bool.true_and, test_bit_lt _ _ hpb]
          have e2 : p % 8 - bits % 8 = (p - bits) % 8 := by omega
          rw [e2]
          exact congrArg (fun b => Nat.testBit b ((p - bits) % 8))
            (congrArg x (Fin.ext (show p / 8 - bits / 8 = (p - bits) / 8 by omega)))
        · rw [decide_eq_false (show ¬(p % 8 ≥ bits % 8) from hks), Bool.false_and]
          rw [decide_eq_false (show ¬(bits ≤ p) by omega), Bool.false_and]
      · rw [if_neg hjb]
        rw [testBit_mod256, decide_eq_true (show p % 8 < 8 by omega), Bool.true_and,
          Nat.testBit_shiftRight]
        by_cases hks : bits % 8 ≤ p % 8
        · rw [decide_eq_true (show p % 8 ≥ bits % 8 from hks), Bool.true_and]
          have hsnd : (x ⟨p / 8 - bits / 8 - 1, by omega⟩).testBit (8 - bits % 8 + p % 8) =
              false := testBit_byte_ge (hx _) (by omega)
          rw [hsnd, Bool.or_false]
          have hble : bits ≤ p := by omega
          have hpb : p - bits < 8 * N := by omega
          rw [decide_eq_true hble, Bool.true_and, test_bit_lt _ _ hpb]
          have e2 : p % 8 - bits % 8 = (p - bits) % 8 := by omega
          rw [e2]
          exact congrArg (fun b => Nat.testBit b ((p - bits) % 8))
            (congrArg x (Fin.ext (show p / 8 - bits / 8 = (p - bits) / 8 by omega)))
        · rw [decide_eq_false (show ¬(p % 8 ≥ bits % 8) from hks), Bool.false_and,
            Bool.false_or]
          have hble : bits ≤ p := by omega
          have hpb : p - bits < 8 * N := by omega
          rw [decide_eq_true hble, Bool.true_and, test_bit_lt _ _ hpb]
          have e2 : 8 - bits % 8 + p % 8 = (p - bits) % 8 := by omega
          rw [e2]
          exact congrArg (fun b => Nat.testBit b ((p - bits) % 8))
            (congrArg x (Fin.ext (show p / 8 - bits / 8 - 1 = (p - bits) / 8 by omega)))
    · rw [dif_neg (show ¬(bits / 8 ≤ p / 8 ∧ p / 8 < N - bits / 8 + bits / 8) by omega)]
      rw [decide_eq_false (show ¬(bits ≤ p) by omega), Bool.false_and]
      simp

/-- Bit-level behaviour of `operator>>`: bit `p` of `x >> bits` is bit
`p + bits` of `x` (which reads as 0 past the top of the buffer). -/
theorem shift_right_testBit {N : Nat} {x : Bytes N} (hx : Wf x) (bits p : Nat)
    (hp : p < 8 * N) :
    test_bit (shift_right x bits) p = test_bit x (p + bits) := by
  by_cases h0 : bits = 0
  · subst h0
    rw [shift_right, if_pos rfl, Nat.add_zero]
  by_cases h1 : 8 * N ≤ bits
  · rw [shift_right, if_neg h0, if_pos h1, test_bit_lt _ _ hp, test_bit_ge _ _ (by omega)]
    simp [zeroB]
  rw [shift_right, if_neg h0, if_neg h1, test_bit_lt _ _ hp]
  by_cases h2 : bits % 8 = 0
  · rw [if_pos h2]
    dsimp only
    by_cases hc : p / 8 < N - bits / 8
    · rw [dif_pos hc]
      have hpb : p + bits < 8 * N := by omega
      rw [test_bit_lt _ _ hpb]
      have e2 : p % 8 = (p + bits) % 8 := by omega
      rw [e2]
      exact congrArg (fun b => Nat.testBit b ((p + bits) % 8))
        (congrArg x (Fin.ext (show p / 8 + bits / 8 = (p + bits) / 8 by omega)))
    · rw [dif_neg hc, test_bit_ge _ _ (by omega)]
      simp
  · rw [if_neg h2]
    obtain ⟨-, hspec⟩ :=
      shrLoop_spec x (bits / 8) (bits % 8) (by omega) (N - bits / 8) (Nat.le_refl _)
    rw [hspec ⟨p / 8, by omega⟩]
    dsimp only
    by_cases hc : p / 8 < N - bits / 8
    · rw [dif_pos (show N - bits / 8 - (N - bits / 8) ≤ p / 8 ∧ p / 8 < N - bits / 8 by omega)]
      rw [testBit_mod256, decide_eq_true (show p % 8 < 8 by omega), Bool.true_and,
        Nat.testBit_or, Nat.testBit_shiftRight]
      by_cases hks : bits % 8 + p % 8 < 8
      · have hfst : (x ⟨p / 8 + bits / 8, by omega⟩).testBit (bits % 8 + p % 8) =
            test_bit x (p + bits) := by
          have hpb : p + bits < 8 * N := by omega
          rw [test_bit_lt _ _ hpb]
          have e2 : bits % 8 + p % 8 = (p + bits) % 8 := by omega
          rw [e2]
          exact congrArg (fun b => Nat.testBit b ((p + bits) % 8))
            (congrArg x (Fin.ext (show p / 8 + bits / 8 = (p + bits) / 8 by omega)))
        rw [hfst]
        by_cases hjb : p / 8 = N - bits / 8 - 1
        · rw [dif_pos hjb, Nat.zero_testBit, Bool.or_false]
        · rw [dif_neg hjb, testBit_mod256, Nat.testBit_shiftLeft]
          rw [decide_eq_true (show p % 8 < 8 by omega), Bool.true_and]
          rw [decide_eq_false (show ¬(p % 8 ≥ 8 - bits % 8) by omega), Bool.false_and,
            Bool.or_false]
      · rw [testBit_byte_ge (hx _) (by omega), Bool.false_or]
        by_cases hjb : p / 8 = N - bits / 8 - 1
        · rw [dif_pos hjb, Nat.zero_testBit, test_bit_ge _ _ (by omega)]
        · rw [dif_neg hjb, testBit_mod256, Nat.testBit_shiftLeft]
          rw [decide_eq_true (show p % 8 < 8 by omega), Bool.true_and]
          rw [decide_eq_true (show p % 8 ≥ 8 - bits % 8 by omega), Bool.true_and]
          have hpb : p + bits < 8 * N := by omega
          rw [test_bit_lt _ _ hpb]
          have e2 : p % 8 - (8 - bits % 8) = (p + bits) % 8 := by omega
          rw [e2]
          exact congrArg (fun b => Nat.testBit b ((p + bits) % 8))
            (congrArg x (Fin.ext (show p / 8 + bits / 8 + 1 = (p + bits) / 8 by omega)))
    · rw [dif_neg (show ¬(N - bits / 8 - (N - bits / 8) ≤ p / 8 ∧ p / 8 < N - bits / 8) by
        omega)]
      rw [test_bit_ge _ _ (by omega)]
      simp

/-- Byte-wise OR acts disjunct-wise on bits. -/
theorem bor_testBit {N : Nat} (a b : Bytes N) (p : Nat) (hp : p < 8 * N) :
    test_bit (bor a b) p = (test_bit a p || test_bit b p) := by
  rw [test_bit_lt _ _ hp, test_bit_lt a _ hp, test_bit_lt b _ hp]
  simp only [bor]
  rw [testBit_mod256, decide_eq_true (show p % 8 < 8 by omega), Bool.true_and,
    Nat.testBit_or]

/-- Bit-level behaviour of `rotate_left`: bit `p` of the result comes from
bit `(p + (bit_count - n % bit_count)) % bit_count` of the argument. -/
theorem rotate_left_testBit {N : Nat} {x : Bytes N} (hx : Wf x) (hN : 0 < N)
    (n p : Nat) (hp : p < 8 * N) :
    test_bit (rotate_left x n) p =
      test_bit x ((p + (8 * N - n % (8 * N))) % (8 * N)) := by
  rw [rotate_left, bor_testBit _ _ _ hp, shift_left_testBit hx _ _ hp,
    shift_right_testBit hx _ _ hp]
  have hmlt : n % (8 * N) < 8 * N := Nat.mod_lt _ (by omega)
  set m := n % (8 * N) with hm
  by_cases hc : m ≤ p
  · rw [test_bit_ge x (p + (8 * N - m)) (by omega), Bool.or_false, decide_eq_true hc,
      Bool.true_and]
    have h1 : p + (8 * N - m) = (p - m) + 8 * N := by omega
    rw [h1, Nat.add_mod_right, Nat.mod_eq_of_lt (show p - m < 8 * N by omega)]
  · rw [decide_eq_false hc, Bool.false_and, Bool.false_or,
      Nat.mod_eq_of_lt (show p + (8 * N - m) < 8 * N by omega)]

/-- Bit-level behaviour of `rotate_right`: bit `p` of the result comes from
bit `(p + n % bit_count) % bit_count` of the argument. -/
theorem rotate_right_testBit {N : Nat} {x : Bytes N} (hx : Wf x) (hN : 0 < N)
    (n p : Nat) (hp : p < 8 * N) :
    test_bit (rotate_right x n) p = test_bit x ((p + n % (8 * N)) % (8 * N)) := by
  rw [rotate_right, bor_testBit _ _ _ hp, shift_right_testBit hx _ _ hp,
    shift_left_testBit hx _ _ hp]
  have hmlt : n % (8 * N) < 8 * N := Nat.mod_lt _ (by omega)
  set m := n % (8 * N) with hm
  by_cases hc : p + m < 8 * N
  · rw [decide_eq_false (show ¬(8 * N - m ≤ p) by omega), Bool.false_and,
      Bool.or_false, Nat.mod_eq_of_lt hc]
  · rw [test_bit_ge x (p + m) (by omega), Bool.false_or,
      decide_eq_true (show 8 * N - m ≤ p by omega), Bool.true_and]
    have h1 : p + m = (p - (8 * N - m)) + 8 * N := by omega
    rw [h1, Nat.add_mod_right, Nat.mod_eq_of_lt (show p - (8 * N - m) < 8 * N by omega)]

/-- State of the swap loop of `swap_bytes()` after `k` iterations: the first
`k` positions and the last `k` positions hold the opposite byte, everything
in between is untouched. -/
theorem swapLoop_spec {N : Nat} (x : Bytes N) :
    ∀ k, ∀ hk : k ≤ N / 2, ∀ j : Fin N,
      swapLoop x k j =
        if j.val < k ∨ N - 1 - j.val < k then
          x ⟨N - 1 - j.val, by have := j.isLt; omega⟩
        else x j := by
  intro k
  induction k with
  | zero =>
    intro hk j
    rw [if_neg (by omega)]
    rfl
  | succ k ih =>
    intro hk j
    have ihj := ih (by omega)
    have hj := j.isLt
    rw [swapLoop, dif_pos (show k < N / 2 by omega)]
    rw [Function.update_apply, Function.update_apply]
    by_cases h1 : j.val = N - 1 - k
    · rw [if_pos (Fin.ext h1), ihj ⟨k, by omega⟩]
      dsimp only
      rw [if_neg (show ¬((k : Nat) < k ∨ N - 1 - k < k) by omega),
        if_pos (show j.val < k + 1 ∨ N - 1 - j.val < k + 1 by omega)]
      exact congrArg x (Fin.ext (show (k : Nat) = N - 1 - j.val by omega))
    · rw [if_neg (fun hh => h1 (congrArg Fin.val hh))]
      by_cases h2 : j.val = k
      · rw [if_pos (Fin.ext h2), ihj ⟨N - 1 - k, by omega⟩]
        dsimp only
        rw [if_neg (show ¬(N - 1 - k < k ∨ N - 1 - (N - 1 - k) < k) by omega),
          if_pos (show j.val < k + 1 ∨ N - 1 - j.val < k + 1 by omega)]
        exact congrArg x (Fin.ext (show N - 1 - k = N - 1 - j.val by omega))
      · rw [if_neg (fun hh => h2 (congrArg Fin.val hh)), ihj j]
        by_cases h3 : j.val < k ∨ N - 1 - j.val < k
        · rw [if_pos h3, if_pos (by omega)]
        · rw [if_neg h3, if_neg (by omega)]

/-- The in-place swap loop computes exactly the byte reversal. -/
theorem swap_bytes_eq_reverse {N : Nat} (x : Bytes N) : swap_bytes x = reverse x := by
  funext j
  rw [swap_bytes, swapLoop_spec x (N / 2) (Nat.le_refl _) j]
  have hj := j.isLt
  by_cases h : j.val < N / 2 ∨ N - 1 - j.val < N / 2
  · rw [if_pos h]
    rfl
  · rw [if_neg h]
    show x j = x ⟨N - 1 - j.val, _⟩
    exact congrArg x (Fin.ext (show j.val = N - 1 - j.val by omega))

/-- The accumulator of `to_int` over the buffer built from an integer holds
the low `8 k` bits of the integer after `k` iterations. -/
theorem toIntLoop_ofInt {N w : Nat} (v : Nat) (hw : w ≤ N) :
    ∀ k, ∀ hk : k ≤ w, toIntLoop (ofInt N w v) k = v % 2 ^ (8 * k) := by
  intro k
  induction k with
  | zero =>
    intro hk
    rw [toIntLoop, Nat.mul_zero, Nat.pow_zero, Nat.mod_one]
  | succ k ih =>
    intro hk
    rw [toIntLoop, ih (by omega), dif_pos (show k < N by omega)]
    show v % 2 ^ (8 * k) |||
        (if (k : Nat) < min w N then (v >>> (k * 8)) % 256 else 0) <<< (k * 8) =
      v % 2 ^ (8 * (k + 1))
    rw [if_pos (show k < min w N by omega)]
    apply Nat.eq_of_testBit_eq
    intro j
    rw [Nat.testBit_or, Nat.testBit_shiftLeft, Nat.testBit_mod_two_pow,
      Nat.testBit_mod_two_pow, testBit_mod256, Nat.testBit_shiftRight]
    by_cases h1 : j < 8 * k
    · rw [decide_eq_true h1, Bool.true_and, decide_eq_true (show j < 8 * (k + 1) by omega),
        Bool.true_and, decide_eq_false (show ¬(j ≥ k * 8) by omega), Bool.false_and,
        Bool.or_false]
    · rw [decide_eq_false h1, Bool.false_and, Bool.false_or,
        decide_eq_true (show j ≥ k * 8 by omega), Bool.true_and]
      by_cases h2 : j < 8 * (k + 1)
      · rw [decide_eq_true (show j - k * 8 < 8 by omega), Bool.true_and,
          decide_eq_true h2, Bool.true_and]
        exact congrArg v.testBit (by omega)
      · rw [decide_eq_false (show ¬(j - k * 8 < 8) by omega), Bool.false_and,
          decide_eq_false h2, Bool.false_and]

/-- Round trip of the integer constructor and `to_int` for a value that fits
in the buffer. -/
theorem to_int_ofInt {N w : Nat} (v : Nat) (hw : w ≤ N) (hv : v < 2 ^ (8 * w)) :
    to_int w (ofInt N w v) = v := by
  rw [to_int, show min w N = w from by omega,
    toIntLoop_ofInt v hw w (Nat.le_refl w), Nat.mod_eq_of_lt hv]

set_option maxRecDepth 4096 in
/-- Complementing a byte value is a XOR with 0xFF. -/
theorem byte_not_xor : ∀ v, v < 256 → 255 - v = v ^^^ 255 := by decide

/-- Absorption at the byte level: `(a AND b) OR (a AND NOT b) = a`. -/
theorem and_absorb (a b : Nat) (ha : a < 256) :
    (a &&& b) ||| (a &&& (b ^^^ 255)) = a := by
  apply Nat.eq_of_testBit_eq
  intro j
  rw [Nat.testBit_or, Nat.testBit_and, Nat.testBit_and, Nat.testBit_xor]
  have h255 : (255 : Nat).testBit j = decide (j < 8) := by
    rw [show (255 : Nat) = 2 ^ 8 - 1 by norm_num, Nat.testBit_two_pow_sub_one]
  rw [h255]
  by_cases hj : j < 8
  · rw [decide_eq_true hj]
    cases a.testBit j <;> cases b.testBit j <;> rfl
  · rw [testBit_byte_ge ha (by omega)]
    simp

/-- Effect of `set_bit` on an arbitrary in-range bit: bit `p` turns on,
every other bit keeps its value. -/
theorem set_bit_testBit {N : Nat} (x : Bytes N) (p q : Nat) (hp : p < 8 * N)
    (hq : q < 8 * N) :
    test_bit (set_bit x p) q = (test_bit x q || decide (q = p)) := by
  rw [set_bit, dif_pos hp, test_bit_lt _ _ hq, test_bit_lt x _ hq, Function.update_apply]
  by_cases hb : q / 8 = p / 8
  · rw [if_pos (Fin.ext hb)]
    rw [testBit_mod256, decide_eq_true (show q % 8 < 8 by omega), Bool.true_and,
      Nat.testBit_or, Nat.one_shiftLeft, Nat.testBit_two_pow]
    have hxx : (x ⟨p / 8, by omega⟩ : Nat).testBit (q % 8) =
        (x ⟨q / 8, by omega⟩ : Nat).testBit (q % 8) :=
      congrArg (fun b => Nat.testBit b (q % 8)) (congrArg x (Fin.ext hb.symm))
    rw [hxx]
    have hdec : decide (p % 8 = q % 8) = decide (q = p) :=
      decide_eq_decide.mpr (by constructor <;> intro hh <;> omega)
    rw [hdec]
  · rw [if_neg (fun hh => hb (congrArg Fin.val hh)),
      decide_eq_false (show ¬(q = p) by omega), Bool.or_false]

/-- Effect of `clear_bit` on an arbitrary in-range bit: bit `p` turns off,
every other bit keeps its value. -/
theorem clear_bit_testBit {N : Nat} (x : Bytes N) (p q : Nat) (hp : p < 8 * N)
    (hq : q < 8 * N) :
    test_bit (clear_bit x p) q = (test_bit x q && !decide (q = p)) := by
  rw [clear_bit, dif_pos hp, test_bit_lt _ _ hq, test_bit_lt x _ hq, Function.update_apply]
  by_cases hb : q / 8 = p / 8
  · rw [if_pos (Fin.ext hb)]
    rw [testBit_mod256, decide_eq_true (show q % 8 < 8 by omega), Bool.true_and,
      Nat.testBit_and, Nat.testBit_xor, Nat.one_shiftLeft, Nat.testBit_two_pow]
    rw [show (4294967295 : Nat) = 2 ^ 32 - 1 by norm_num, Nat.testBit_two_pow_sub_one,
      decide_eq_true (show q % 8 < 32 by omega)]
    have hxx : (x ⟨p / 8, by omega⟩ : Nat).testBit (q % 8) =
        (x ⟨q / 8, by omega⟩ : Nat).testBit (q % 8) :=
      congrArg (fun b => Nat.testBit b (q % 8)) (congrArg x (Fin.ext hb.symm))
    rw [hxx]
    have hdec : decide (p % 8 = q % 8) = decide (q = p) :=
      decide_eq_decide.mpr (by constructor <;> intro hh <;> omega)
    rw [hdec, Bool.true_xor]
  · rw [if_neg (fun hh => hb (congrArg Fin.val hh)),
      decide_eq_false (show ¬(q = p) by omega), Bool.not_false, Bool.and_true]

/-- Effect of `toggle_bit` on an arbitrary in-range bit: bit `p` flips,
every other bit keeps its value. -/
theorem toggle_bit_testBit {N : Nat} (x : Bytes N) (p q : Nat) (hp : p < 8 * N)
    (hq : q < 8 * N) :
    test_bit (toggle_bit x p) q = ((test_bit x q) ^^ decide (q = p)) := by
  rw [toggle_bit, dif_pos hp, test_bit_lt _ _ hq, test_bit_lt x _ hq, Function.update_apply]
  by_cases hb : q / 8 = p / 8
  · rw [if_pos (Fin.ext hb)]
    rw [testBit_mod256, decide_eq_true (show q % 8 < 8 by omega), Bool.true_and,
      Nat.testBit_xor, Nat.one_shiftLeft, Nat.testBit_two_pow]
    have hxx : (x ⟨p / 8, by omega⟩ : Nat).testBit (q % 8) =
        (x ⟨q / 8, by omega⟩ : Nat).testBit (q % 8) :=
      congrArg (fun b => Nat.testBit b (q % 8)) (congrArg x (Fin.ext hb.symm))
    rw [hxx]
    have hdec : decide (p % 8 = q % 8) = decide (q = p) :=
      decide_eq_decide.mpr (by constructor <;> intro hh <;> omega)
    rw [hdec]
  · rw [if_neg (fun hh => hb (congrArg Fin.val hh)),
      decide_eq_false (show ¬(q = p) by omega), Bool.xor_false]

/-! ### Claims -/

/-- C1 is false on the code: `to_little_endian(to_big_endian(x))` is not the
identity; on either host byte order it sends the buffer `[1, 2]` to
`[2, 1]`. -/
theorem C1_counterexample :
    to_little_endian true (to_big_endian true xC1) ≠ xC1
    ∧ to_little_endian false (to_big_endian false xC1) ≠ xC1 := by
  constructor <;>
  · intro h
    have h0 := congrFun h ⟨0, by norm_num⟩
    rw [to_little_endian, to_big_endian] at h0
    simp [reverse, xC1] at h0

/-- C1 (amended): on every host byte order, applying `to_big_endian` and then
`to_little_endian` yields exactly the byte reversal `reverse()` of the
argument, never the identity map; it returns `x` itself only on buffers that
equal their own reversal. -/
theorem C1_endian_pair_is_reverse (N : Nat) (le : Bool) (x : Bytes N) :
    to_little_endian le (to_big_endian le x) = reverse x := by
  cases le <;> simp [to_little_endian, to_big_endian]

/-- C2: shifting left by `s < 8N` and then right by `s` preserves every bit
position below `8N - s` and clears positions `8N - s` and above; shifting
left by `8N` or more gives the all-zero buffer. -/
theorem C2_shift_roundtrip (N s : Nat) (x : Bytes N) (hx : Wf x) (hs : s < 8 * N) :
    (∀ p, p < 8 * N - s → test_bit (shift_right (shift_left x s) s) p = test_bit x p)
    ∧ (∀ p, 8 * N - s ≤ p → test_bit (shift_right (shift_left x s) s) p = false)
    ∧ (∀ t, 8 * N ≤ t → shift_left x t = zeroB N) := by
  refine ⟨fun p hp => ?_, fun p hp => ?_, fun t ht => ?_⟩
  · rw [shift_right_testBit (wf_shift_left hx s) s p (by omega),
      shift_left_testBit hx s (p + s) (by omega),
      decide_eq_true (show s ≤ p + s by omega), Bool.true_and]
    exact congrArg (test_bit x) (by omega)
  · by_cases hp8 : p < 8 * N
    · rw [shift_right_testBit (wf_shift_left hx s) s p hp8]
      exact test_bit_ge _ _ (by omega)
    · exact test_bit_ge _ _ (by omega)
  · rw [shift_left, if_neg (by omega), if_pos ht]

/-- C2 witness at `N = 1`, `s = 3`, `x = 0xAB`: a preserved low bit and a
cleared top bit. -/
theorem C2_shift_roundtrip_witness :
    test_bit (shift_right (shift_left xC2 3) 3) 2 = test_bit xC2 2
    ∧ test_bit (shift_right (shift_left xC2 3) 3) 6 = false :=
  ⟨(C2_shift_roundtrip 1 3 xC2 (by decide) (by norm_num)).1 2 (by norm_num),
   (C2_shift_roundtrip 1 3 xC2 (by decide) (by norm_num)).2.1 6 (by norm_num)⟩

/-- C3: rotating left by any `n` and then right by the same `n` returns the
buffer unchanged, and rotating left by exactly `bit_count` is the
identity. -/
theorem C3_rotate_roundtrip (N : Nat) (hN : 0 < N) (x : Bytes N) (hx : Wf x) :
    (∀ n, rotate_right (rotate_left x n) n = x) ∧ rotate_left x (8 * N) = x := by
  constructor
  · intro n
    apply wf_byte_ext (wf_rotate_right (rotate_left x n) n) hx
    intro p hp
    rw [rotate_right_testBit (wf_rotate_left x n) hN n p hp,
      rotate_left_testBit hx hN n ((p + n % (8 * N)) % (8 * N)) (Nat.mod_lt _ (by omega))]
    have hm8 : n % (8 * N) < 8 * N := Nat.mod_lt _ (by omega)
    set m := n % (8 * N) with hmdef
    by_cases hc : p + m < 8 * N
    · rw [Nat.mod_eq_of_lt hc]
      have h1 : p + m + (8 * N - m) = p + 8 * N := by omega
      rw [h1, Nat.add_mod_right, Nat.mod_eq_of_lt hp]
    · have h1 : p + m = p + m - 8 * N + 8 * N := by omega
      rw [h1, Nat.add_mod_right, Nat.mod_eq_of_lt (show p + m - 8 * N < 8 * N by omega)]
      have h2 : p + m - 8 * N + (8 * N - m) = p := by omega
      rw [h2, Nat.mod_eq_of_lt hp]
  · have e1 : shift_left x (8 * N % (8 * N)) = x := by
      rw [Nat.mod_self, shift_left, if_pos rfl]
    have e2 : shift_right x (8 * N - 8 * N % (8 * N)) = zeroB N := by
      rw [Nat.mod_self, Nat.sub_zero, shift_right, if_neg (by omega),
        if_pos (Nat.le_refl _)]
    rw [rotate_left, e1, e2]
    funext i
    show (x i ||| zeroB N i) % 256 = x i
    rw [show zeroB N i = 0 from rfl, Nat.or_zero, Nat.mod_eq_of_lt (hx i)]

/-- C3 witness at `N = 1`, `x = 0xCA`, `n = 5` (and the full-circle case). -/
theorem C3_rotate_roundtrip_witness :
    rotate_right (rotate_left xC3 5) 5 = xC3 ∧ rotate_left xC3 (8 * 1) = xC3 :=
  ⟨(C3_rotate_roundtrip 1 (by norm_num) xC3 (by decide)).1 5,
   (C3_rotate_roundtrip 1 (by norm_num) xC3 (by decide)).2⟩

/-- C4: constructing a buffer from a `w`-byte integer value (`w = sizeof(Int)
≤ N`, the value given by its bit pattern below `2^(8w)`) and extracting with
`to_int` of the same width returns exactly the value. -/
theorem C4_int_roundtrip (N w v : Nat) (hw : w ≤ N) (hv : v < 2 ^ (8 * w)) :
    to_int w (ofInt N w v) = v :=
  to_int_ofInt v hw hv

/-- C4 witness: a 2-byte value `0xBEEF` through a 4-byte buffer. -/
theorem C4_int_roundtrip_witness : to_int 2 (ofInt 4 2 48879) = 48879 :=
  C4_int_roundtrip 4 2 48879 (by norm_num) (by norm_num)

/-- C5: `from_int(v, order)` followed by `to_int(order)` returns exactly `v`
for a value of width `w ≤ N`, for both orders and on either host byte
order. -/
theorem C5_endian_int_roundtrip (N w v : Nat) (le : Bool) (ord : endian_t)
    (hw : w ≤ N) (hv : v < 2 ^ (8 * w)) :
    to_int_endian le w (from_int N le w v ord) ord = v := by
  rw [to_int_endian, from_endian, to_endian, from_int]
  by_cases hord : ord = native_endian le
  · rw [if_neg (not_not_intro hord), if_pos hord]
    exact to_int_ofInt v hw hv
  · rw [if_pos hord, if_neg hord, swap_bytes_eq_reverse, reverse_reverse]
    exact to_int_ofInt v hw hv

/-- C5 witness: value `0xABCD`, width 2, buffer width 3, both parameter
orders on a big-endian host. -/
theorem C5_endian_int_roundtrip_witness :
    to_int_endian false 2 (from_int 3 false 2 43981 endian_t.little) endian_t.little = 43981
    ∧ to_int_endian false 2 (from_int 3 false 2 43981 endian_t.big) endian_t.big = 43981 :=
  ⟨C5_endian_int_roundtrip 3 2 43981 false endian_t.little (by norm_num) (by norm_num),
   C5_endian_int_roundtrip 3 2 43981 false endian_t.big (by norm_num) (by norm_num)⟩

/-- C6: every `from_*` endian conversion is the same function as its `to_*`
counterpart, `to_network` is `to_big_endian`, and each of the conversions is
its own inverse. -/
theorem C6_endian_family (N : Nat) (le : Bool) (x : Bytes N) :
    from_little_endian le x = to_little_endian le x
    ∧ from_big_endian le x = to_big_endian le x
    ∧ from_network le x = to_network le x
    ∧ to_network le x = to_big_endian le x
    ∧ to_little_endian le (to_little_endian le x) = x
    ∧ to_big_endian le (to_big_endian le x) = x
    ∧ to_network le (to_network le x) = x := by
  refine ⟨rfl, rfl, rfl, rfl, ?_, ?_, ?_⟩ <;>
    cases le <;>
      simp [to_little_endian, to_big_endian, to_network, reverse_reverse]

/-- C7: `operator[]` is total: an index below `N` reads byte `i`, any larger
index silently reads byte `N - 1`. -/
theorem C7_subscript_clamps (N : Nat) (hN : 0 < N) (x : Bytes N) (i : Nat) :
    (∀ hi : i < N, subscript hN x i = x ⟨i, hi⟩)
    ∧ (N ≤ i → subscript hN x i = x ⟨N - 1, by omega⟩) := by
  constructor
  · intro hi
    rw [subscript]
    exact congrArg x (Fin.ext (by simp [hi]))
  · intro hi
    rw [subscript]
    exact congrArg x (Fin.ext (by simp [Nat.not_lt.mpr hi]))

/-- C7 witness at `N = 2`: index 5 is clamped to byte 1, index 0 reads
byte 0. -/
theorem C7_subscript_clamps_witness :
    subscript (by norm_num) xC7 5 = xC7 ⟨1, by norm_num⟩
    ∧ subscript (by norm_num) xC7 0 = xC7 ⟨0, by norm_num⟩ :=
  ⟨(C7_subscript_clamps 2 (by norm_num) xC7 5).2 (by norm_num),
   (C7_subscript_clamps 2 (by norm_num) xC7 0).1 (by norm_num)⟩

/-- C8: for a bit position at or past `bit_count`, the three mutators leave
the buffer unchanged and `test_bit` answers false. -/
theorem C8_out_of_range_bits (N : Nat) (x : Bytes N) (pos : Nat) (h : 8 * N ≤ pos) :
    set_bit x pos = x ∧ clear_bit x pos = x ∧ toggle_bit x pos = x
    ∧ test_bit x pos = false :=
  ⟨by rw [set_bit, dif_neg (by omega)],
   by rw [clear_bit, dif_neg (by omega)],
   by rw [toggle_bit, dif_neg (by omega)],
   test_bit_ge x pos h⟩

/-- C8 witness at `N = 1`, position 9. -/
theorem C8_out_of_range_bits_witness :
    set_bit xC8 9 = xC8 ∧ clear_bit xC8 9 = xC8 ∧ toggle_bit xC8 9 = xC8
    ∧ test_bit xC8 9 = false :=
  C8_out_of_range_bits 1 xC8 9 (by norm_num)

/-- C9: on well-formed buffers, `(a AND b) OR (a AND (NOT b)) = a`, with the
operations acting byte-wise: `(a AND b)[i] = a[i] AND b[i]`. -/
theorem C9_absorption (N : Nat) (a b : Bytes N) (ha : Wf a) (hb : Wf b) :
    bor (band a b) (band a (bnot b)) = a ∧ ∀ i, band a b i = a i &&& b i := by
  constructor
  · funext i
    show ((a i &&& b i) % 256 ||| (a i &&& (255 - b i % 256)) % 256) % 256 = a i
    rw [Nat.mod_eq_of_lt (hb i), byte_not_xor (b i) (hb i),
      Nat.mod_eq_of_lt (Nat.lt_of_le_of_lt Nat.and_le_left (ha i)),
      Nat.mod_eq_of_lt (Nat.lt_of_le_of_lt Nat.and_le_left (ha i))]
    have h256 : (256 : Nat) = 2 ^ 8 := by norm_num
    have h1 : a i &&& b i < 2 ^ 8 :=
      Nat.lt_of_le_of_lt Nat.and_le_left (h256 ▸ ha i)
    have h2 : a i &&& (b i ^^^ 255) < 2 ^ 8 :=
      Nat.lt_of_le_of_lt Nat.and_le_left (h256 ▸ ha i)
    rw [Nat.mod_eq_of_lt (h256.symm ▸ Nat.or_lt_two_pow h1 h2)]
    exact and_absorb (a i) (b i) (ha i)
  · exact fun i => Nat.mod_eq_of_lt (Nat.lt_of_le_of_lt Nat.and_le_left (ha i))

/-- C9 witness on the two-byte buffers `[0xF0, 0xAA]` and `[0xCC, 0x55]`. -/
theorem C9_absorption_witness :
    bor (band aC9 bC9) (band aC9 (bnot bC9)) = aC9
    ∧ band aC9 bC9 ⟨0, by norm_num⟩ = aC9 ⟨0, by norm_num⟩ &&& bC9 ⟨0, by norm_num⟩ :=
  ⟨(C9_absorption 2 aC9 bC9 (by decide) (by decide)).1,
   (C9_absorption 2 aC9 bC9 (by decide) (by decide)).2 ⟨0, by norm_num⟩⟩

/-- C10: for an in-range position `p`, each mutator changes only bit `p`:
every other in-range position tests the same before and after, and bit `p`
itself becomes set, cleared, or inverted respectively. -/
theorem C10_bit_mutation_frame (N : Nat) (x : Bytes N) (p : Nat) (hp : p < 8 * N) :
    (∀ q, q < 8 * N → q ≠ p →
        test_bit (set_bit x p) q = test_bit x q
        ∧ test_bit (clear_bit x p) q = test_bit x q
        ∧ test_bit (toggle_bit x p) q = test_bit x q)
    ∧ test_bit (set_bit x p) p = true
    ∧ test_bit (clear_bit x p) p = false
    ∧ test_bit (toggle_bit x p) p = (!test_bit x p) := by
  refine ⟨fun q hq hqp => ⟨?_, ?_, ?_⟩, ?_, ?_, ?_⟩
  · rw [set_bit_testBit x p q hp hq, decide_eq_false hqp, Bool.or_false]
  · rw [clear_bit_testBit x p q hp hq, decide_eq_false hqp, Bool.not_false, Bool.and_true]
  · rw [toggle_bit_testBit x p q hp hq, decide_eq_false hqp, Bool.xor_false]
  · rw [set_bit_testBit x p p hp hp, decide_eq_true rfl, Bool.or_true]
  · rw [clear_bit_testBit x p p hp hp, decide_eq_true rfl, Bool.not_true, Bool.and_false]
  · rw [toggle_bit_testBit x p p hp hp, decide_eq_true rfl, Bool.xor_true]

/-- C10 witness at `N = 1`, `p = 3`: bit 0 is untouched by `set_bit 3` and
bit 3 is inverted by `toggle_bit 3`. -/
theorem C10_bit_mutation_frame_witness :
    test_bit (set_bit xC10 3) 0 = test_bit xC10 0
    ∧ test_bit (toggle_bit xC10 3) 3 = (!test_bit xC10 3) :=
  ⟨((C10_bit_mutation_frame 1 xC10 3 (by norm_num)).1 0 (by norm_num) (by norm_num)).1,
   (C10_bit_mutation_frame 1 xC10 3 (by norm_num)).2.2.2⟩

end Zuu
